import Mathlib

/-
Verification development for the skf-vfx-tools repository (two Python scripts:
src/bin/batch_exr_to_editorial.py and src/bin/dng_to_exr_full_metadata.py).

The scripts are shallowly embedded: pure string/list manipulation is translated
directly; filesystem and subprocess effects are supplied by environment records
(oracles) whose fields model the outcomes the Python runtime can produce
(results, exit codes, or raised exceptions).  Python regular expressions used by
the scripts (trailing digit-run extraction) are implemented as the equivalent
deterministic character-list scans; `\d` is modelled as ASCII digits.

Notation mapping (Python -> Lean):
  str sort order            -> charListLe (code-point lexicographic)
  "%0Nd" formatting         -> padNum
  os.walk output            -> a list of (dirpath, files) pairs given as input
  subprocess.run            -> EncEnv.run returning ToolRes (result or raised)
-/

namespace SKF

/-- Code-point lexicographic comparison of char lists: models Python `str`
comparison (used by `list.sort()` in `find_exr_sequences`). -/
def charListLe : List Char → List Char → Bool
  | [], _ => true
  | _ :: _, [] => false
  | a :: as, b :: bs =>
    if a.toNat < b.toNat then true
    else if b.toNat < a.toNat then false
    else charListLe as bs

/-- Python string `<=` as a proposition. -/
def strLe (f g : String) : Prop := charListLe f.data g.data = true

instance : DecidableRel strLe := fun f g => inferInstanceAs (Decidable (_ = true))

/-- `needle` is a front segment of `hay` (char lists). -/
def listHasPre : List Char → List Char → Bool
  | [], _ => true
  | _ :: _, [] => false
  | a :: as, b :: bs => a == b && listHasPre as bs

/-- `needle` occurs as a contiguous segment of `hay`: models Python `in` on strings. -/
def listHasSub (nd : List Char) : List Char → Bool
  | [] => nd.isEmpty
  | c :: cs => listHasPre nd (c :: cs) || listHasSub nd cs

/-- Python `str.endswith`. -/
def strEndsWith (f s : String) : Bool := listHasPre s.data.reverse f.data.reverse

/-- Python `needle in hay` on strings. -/
def strHasSub (hay nd : String) : Bool := listHasSub nd.data hay.data

/-- Python `hay.startswith(s)`. -/
def strStarts (f s : String) : Bool := listHasPre s.data f.data

/-- Value of an ASCII digit character. -/
def digitVal (c : Char) : Nat := c.toNat - 48

/-- Python `int()` on a (non-empty) digit string, as a fold. -/
def digitsToNat (l : List Char) : Nat := l.foldl (fun a c => 10 * a + digitVal c) 0

/-- Python `f"{n:0wd}"` for natural `n`: decimal digits left-padded with zeros
to width `w`. -/
def padNum (n w : Nat) : String :=
  String.mk (List.replicate (w - (toString n).length) '0') ++ toString n

/-- Python `str.rstrip(c)` for a single strip character. -/
def rstripChar (s : String) (c : Char) : String :=
  String.mk ((s.data.reverse.dropWhile (fun x => x == c)).reverse)

/-- posixpath `os.path.dirname`. -/
def dirname (p : String) : String :=
  let rev := p.data.reverse
  let base := rev.takeWhile (fun c => !(c == '/'))
  let headRev := rev.drop base.length
  if headRev.isEmpty then ""
  else if headRev.all (fun c => c == '/') then String.mk headRev.reverse
  else String.mk ((headRev.dropWhile (fun c => c == '/')).reverse)

/-- posixpath `os.path.basename`. -/
def basename (p : String) : String :=
  String.mk ((p.data.reverse.takeWhile (fun c => !(c == '/'))).reverse)

/- ===================== batch_exr_to_editorial.py : configuration ========= -/

/-- `SLATE_FRAME = 1000` (the anchor/slate frame constant). -/
def SLATE_FRAME : Nat := 1000

/-- `DNXHR_PROFILE = "dnxhr_sq"`. -/
def DNXHR_PROFILE : String := "dnxhr_sq"

/-- `DEFAULT_FPS = 24`. -/
def DEFAULT_FPS : Nat := 24

/-- The fixed scratch root used by `encode_sequence`. -/
def temp_base : String := "/mnt/caches/cache_ffmpeg"

/- ===================== Sequence detection ================================ -/

/-- Core of the regex `(\d+)(\.[^.]+)$` applied to a REVERSED character list.
Returns `(headRev, digitsRev, extRev)` (each reversed) such that
`rev = extRev ++ digitsRev ++ headRev`: the extension is the final dot plus a
non-empty run of non-dot characters, immediately preceded by a non-empty
maximal run of digits. -/
def splitRev (rev : List Char) : Option (List Char × List Char × List Char) :=
  let extR := rev.takeWhile (fun c => !(c == '.'))
  match rev.dropWhile (fun c => !(c == '.')) with
  | [] => none
  | c :: rest =>
    if extR.isEmpty then none
    else
      let digR := rest.takeWhile (fun c => c.isDigit)
      if digR.isEmpty then none
      else some (rest.dropWhile (fun c => c.isDigit), digR, extR ++ [c])

/-- Splits `f` into `(head, digits, ext)` with `f = head ++ digits ++ ext`
when the filename matches `(\d+)(\.[^.]+)$`; `head` equals the result of
`re.sub(r'\d+(\.[^.]+)$', '', f)`. -/
def splitFrameName (f : String) : Option (String × String × String) :=
  match splitRev f.data.reverse with
  | none => none
  | some (hr, dr, er) => some (String.mk hr.reverse, String.mk dr.reverse, String.mk er.reverse)

/-- `detect_sequence_padding`: returns `(padding_length, extension)`. -/
def detect_sequence_padding (f : String) : Option (Nat × String) :=
  match splitFrameName f with
  | none => none
  | some (_, d, e) => some (d.length, e)

/-- Grouping key used by `find_exr_sequences`: `(head, ext, pad)`. -/
abbrev SeqKey := String × String × Nat

/-- The per-file admission test of `find_exr_sequences`: `.exr` suffix, optional
shot-filter substring, and a detectable frame-number/extension split. -/
def fileKeyCore (f : String) : Option SeqKey :=
  match splitFrameName f with
  | none => none
  | some (h, d, e) => some (h, e, d.length)

/-- `fileKey filt f` is `some (head, ext, pad)` iff the loop body of
`find_exr_sequences` admits `f` and files it under that key. -/
def fileKey (filt : Option String) (f : String) : Option SeqKey :=
  if strEndsWith f ".exr" then
    match filt with
    | some s => if strHasSub f s then fileKeyCore f else none
    | none => fileKeyCore f
  else none

/-- One `candidates.setdefault(key, []).append(f)` step on an insertion-ordered
association list (Python dict preserves insertion order). -/
def addCand : List (SeqKey × List String) → SeqKey → String → List (SeqKey × List String)
  | [], k, f => [(k, [f])]
  | (k2, fs) :: rest, k, f =>
    if k2 = k then (k2, fs ++ [f]) :: rest else (k2, fs) :: addCand rest k f

/-- One iteration of the inner `for f in files` loop. -/
def scanStep (filt : Option String) (cands : List (SeqKey × List String)) (f : String) :
    List (SeqKey × List String) :=
  match fileKey filt f with
  | none => cands
  | some k => addCand cands k f

/-- The `candidates` dict built for one directory. -/
def buildCands (filt : Option String) (files : List String) : List (SeqKey × List String) :=
  files.foldl (scanStep filt) []

/-- Association-list lookup on the candidates structure. -/
def lookupC (cands : List (SeqKey × List String)) (k : SeqKey) : Option (List String) :=
  match cands with
  | [] => none
  | (k2, g) :: rest => if k2 = k then some g else lookupC rest k

/-- A sequence record: `dir, head, ext, pad, start, end, count` (the Python dict
appended to `sequences`; `end` is called `endFrame` since `end` is reserved). -/
structure SeqRec where
  dir : String
  head : String
  ext : String
  pad : Nat
  start : Nat
  endFrame : Nat
  count : Nat
deriving DecidableEq, Repr

/-- The frame number parsed from a filename's trailing digit run (0 when the
name does not match; never used on such names). -/
def frameNumOf (f : String) : Nat :=
  match splitFrameName f with
  | some (_, d, _) => digitsToNat d.data
  | none => 0

/-- Python `seq_files.sort()` (lexicographic, stable; ties are identical
strings, so any comparison-correct sort yields the same list). -/
def sortFiles (l : List String) : List String := List.insertionSort strLe l

/-- Builds the record for one `(key, seq_files)` entry of `candidates`:
sorts the group, re-extracts the first/last frame numbers (the code's
`start_match`/`end_match` guard is the inner `match`). -/
def recOf (dir : String) (k : SeqKey) (fs : List String) : Option SeqRec :=
  let sorted := sortFiles fs
  match sorted.head?, sorted.getLast? with
  | some f0, some f1 =>
    match splitFrameName f0, splitFrameName f1 with
    | some (_, d0, _), some (_, d1, _) =>
      some { dir := dir, head := k.1, ext := k.2.1, pad := k.2.2,
             start := digitsToNat d0.data, endFrame := digitsToNat d1.data,
             count := fs.length }
    | _, _ => none
  | _, _ => none

/-- Processing of one directory visited by `os.walk` inside `find_exr_sequences`:
build the candidates dict, then emit one record per group. -/
def scanDir (filt : Option String) (dir : String) (files : List String) : List SeqRec :=
  (buildCands filt files).filterMap (fun kg => recOf dir kg.1 kg.2)

/-- `find_exr_sequences(root_dir, shot_filter)`, with the `os.walk` result
supplied as a list of `(dirpath, files)` pairs. -/
def find_exr_sequences (walk : List (String × List String)) (filt : Option String) :
    List SeqRec :=
  walk.foldl (fun acc df => acc ++ scanDir filt df.1 df.2) []

/-- The files of one directory admitted under a given key, in directory order. -/
def groupOf (filt : Option String) (files : List String) (k : SeqKey) : List String :=
  files.filter (fun f => decide (fileKey filt f = some k))

/- ===================== frame_to_timecode ================================= -/

/-- `frame_to_timecode(frame, fps)`: non-drop-frame timecode from a frame
number, zero-padded components joined with colons. -/
def frame_to_timecode (frame : Nat) (fps : Nat) : String :=
  let hours := frame / (fps * 3600)
  let mins := (frame % (fps * 3600)) / (fps * 60)
  let secs := (frame % (fps * 60)) / fps
  let frames := frame % fps
  padNum hours 2 ++ ":" ++ padNum mins 2 ++ ":" ++ padNum secs 2 ++ ":" ++ padNum frames 2

/- ===================== EXR timecode probe and encoding =================== -/

/-- Outcome of one `subprocess.run` call: either the Python-level exception it
raised (e.g. `FileNotFoundError` for a missing binary) or the completed
process's return code and captured stdout/stderr. -/
inductive ToolRes where
  | raised (e : String)
  | done (rc : Int) (out : String) (err : String)
deriving DecidableEq, Repr

/-- Environment oracle for `encode_sequence`: filesystem probes and external
tool outcomes.  `embeddedTc` is the result of `get_exr_timecode` (which
swallows every exception internally and yields either a matched timecode
string or `None`).  `makedirsRes`/`mkdtempRes` model `os.makedirs` and
`tempfile.mkdtemp` (`some e`/`.error e` meaning a raised exception). -/
structure EncEnv where
  pathExists : String → Bool
  embeddedTc : String → Option String
  makedirsRes : String → Option String
  mkdtempRes : Except String String
  run : List String → ToolRes

/-- Observable side effects of one `encode_sequence` call, in order. -/
inductive Event where
  | makedirs (p : String)
  | mkdtemp (d : String)
  | runTool (argv : List String)
  | rmtree (d : String)
deriving DecidableEq, Repr

/-- The oiiotool command list built by `encode_sequence` (stage 1). -/
def oiio_cmd (input_pattern lut_path temp_dir : String) : List String :=
  ["oiiotool", input_pattern,
   "--colorconvert", "ACES2065-1", "ARRI LogC4",
   "--ociofiletransform", lut_path,
   "-d", "uint16",
   "-o", temp_dir ++ "/graded.%04d.png"]

/-- A single-quote character (ffmpeg drawtext quoting). -/
def sq : String := String.singleton (Char.ofNat 39)

/-- The ffmpeg `-vf` filter chain built by `encode_sequence`
(`letterbox_h = 35` inlined). -/
def vfChain (vendor_name shot_id submit_date video_filename : String)
    (start_frame : Nat) : String :=
  "scale=1920:-1,crop=1920:1080"
  ++ ",drawbox=x=0:y=0:w=1920:h=35:color=black@0.5:t=fill"
  ++ ",drawbox=x=0:y=ih-35:w=1920:h=35:color=black@0.5:t=fill"
  ++ ",drawtext=text=" ++ sq ++ vendor_name ++ sq
  ++ ":fontsize=18:fontcolor=white:x=10:y=8"
  ++ ",drawtext=text=" ++ sq ++ shot_id ++ sq
  ++ ":fontsize=18:fontcolor=white:x=(w-text_w)/2:y=8"
  ++ ",drawtext=text=" ++ sq ++ submit_date ++ sq
  ++ ":fontsize=18:fontcolor=white:x=w-text_w-10:y=8"
  ++ ",drawtext=text=" ++ sq ++ video_filename ++ sq
  ++ ":fontsize=18:fontcolor=white:x=10:y=h-text_h-8"
  ++ ",drawtext=text=" ++ sq ++ "%\x7bframe_num\x7d" ++ sq
  ++ ":start_number=" ++ toString start_frame
  ++ ":fontsize=18:fontcolor=white:x=w-text_w-10:y=h-text_h-8"

/-- The ffmpeg command list built by `encode_sequence` (stage 2). -/
def ffmpeg_cmd (fps start_frame : Nat) (temp_dir vf tc output_path : String) :
    List String :=
  ["ffmpeg", "-y",
   "-threads", "0",
   "-framerate", toString fps,
   "-start_number", toString start_frame,
   "-i", temp_dir ++ "/graded.%04d.png",
   "-filter_threads", "0",
   "-vf", vf,
   "-c:v", "dnxhd",
   "-threads", "0",
   "-profile:v", DNXHR_PROFILE,
   "-pix_fmt", "yuv422p",
   "-timecode", tc,
   "-color_primaries", "bt709",
   "-color_trc", "bt709",
   "-colorspace", "bt709",
   "-movflags", "+faststart",
   output_path]

/-- `re.sub(r'_SUP.*|_CMP.*', '', s)` on a char list: drop everything from the
first occurrence of either marker. -/
def cutMarkerAux : List Char → List Char
  | [] => []
  | c :: cs =>
    if listHasPre "_SUP".data (c :: cs) || listHasPre "_CMP".data (c :: cs) then []
    else c :: cutMarkerAux cs

/-- Shot-id derivation for burn-ins. -/
def shotIdOf (full_name : String) : String := String.mk (cutMarkerAux full_name.data)

/-- The slate-frame path `seq_info['dir'] / f"{head}{SLATE_FRAME:0{pad}d}{ext}"`. -/
def slatePathOf (seq : SeqRec) : String :=
  seq.dir ++ "/" ++ seq.head ++ padNum SLATE_FRAME seq.pad ++ seq.ext

/-- Body of the `try:` block of `encode_sequence` (stage 1, output-dir
creation, burn-in metadata, stage 2, output existence check), returning the
result of the block plus the effects it performed.  A `.error` result is a
Python exception propagating out of the block. -/
def encodeBody (seq : SeqRec) (input_pattern output_path lut_path : String)
    (fps : Nat) (tc : String) (start_frame : Nat) (temp_dir : String)
    (env : EncEnv) : Except String Bool × List Event :=
  let cmd1 := oiio_cmd input_pattern lut_path temp_dir
  match env.run cmd1 with
  | .raised e => (.error e, [.runTool cmd1])
  | .done rc _ _ =>
    if rc ≠ 0 then (.ok false, [.runTool cmd1])
    else
      match env.makedirsRes (dirname output_path) with
      | some e => (.error e, [.runTool cmd1])
      | none =>
        let full_name := rstripChar (rstripChar seq.head '.') '_'
        let shot_id := shotIdOf full_name
        let video_filename := basename output_path
        let dateCmd := ["date", "+%Y%m%d"]
        match env.run dateCmd with
        | .raised e =>
          (.error e, [.runTool cmd1, .makedirs (dirname output_path), .runTool dateCmd])
        | .done _ dout _ =>
          let submit_date := dout.trim
          let vendor_name := "soup kitchen films"
          let vf := vfChain vendor_name shot_id submit_date video_filename start_frame
          let cmd2 := ffmpeg_cmd fps start_frame temp_dir vf tc output_path
          let tr := [Event.runTool cmd1, Event.makedirs (dirname output_path),
                     Event.runTool dateCmd, Event.runTool cmd2]
          match env.run cmd2 with
          | .raised e => (.error e, tr)
          | .done rc2 _ _ =>
            if rc2 ≠ 0 then (.ok false, tr)
            else if env.pathExists output_path then (.ok true, tr)
            else (.ok false, tr)

/-- `encode_sequence(seq_info, output_path, lut_path, fps, dry_run)`.
Returns the call's outcome (`.ok b` for a normal `return b`, `.error e` for a
Python exception leaving the call) together with its effect trace.  The
`finally: shutil.rmtree(temp_dir, ignore_errors=True)` clause appends the
`rmtree` effect on every exit path of the `try` block. -/
def encode_sequence (seq : SeqRec) (output_path lut_path : String) (fps : Nat)
    (dry_run : Bool) (env : EncEnv) : Except String Bool × List Event :=
  let frame_pattern := "%0" ++ toString seq.pad ++ "d" ++ seq.ext
  let input_pattern := seq.dir ++ "/" ++ seq.head ++ frame_pattern
  if env.pathExists (slatePathOf seq) then
    let start_frame := SLATE_FRAME
    let tc :=
      match env.embeddedTc (slatePathOf seq) with
      | some t => t
      | none => frame_to_timecode start_frame fps
    if dry_run then (.ok true, [])
    else
      match env.makedirsRes temp_base with
      | some e => (.error e, [])
      | none =>
        match env.mkdtempRes with
        | .error e => (.error e, [.makedirs temp_base])
        | .ok temp_dir =>
          let res := encodeBody seq input_pattern output_path lut_path fps tc
            start_frame temp_dir env
          (res.1, Event.makedirs temp_base :: Event.mkdtemp temp_dir ::
            (res.2 ++ [Event.rmtree temp_dir]))
  else (.ok false, [])

/-- The per-sequence output path built by `main`:
`os.path.join(output_dir, f"{shot_name}.mov")`. -/
def outPathOf (output_dir : String) (seq : SeqRec) : String :=
  output_dir ++ "/" ++ rstripChar (rstripChar seq.head '.') '_' ++ ".mov"

/-- One iteration of the `for seq in sequences` loop of `main`
(batch_exr_to_editorial): update the success/fail counters, or propagate an
uncaught exception. -/
def batchStep (output_dir lut_path : String) (fps : Nat) (dry_run : Bool)
    (env : EncEnv) (acc : Nat × Nat) (seq : SeqRec) : Except String (Nat × Nat) :=
  match (encode_sequence seq (outPathOf output_dir seq) lut_path fps dry_run env).1 with
  | .error e => .error e
  | .ok true => .ok (acc.1 + 1, acc.2)
  | .ok false => .ok (acc.1, acc.2 + 1)

/-- The whole counting loop of `main` (batch_exr_to_editorial); the
accumulator is `(success_count, fail_count)`. -/
def batchLoop (output_dir lut_path : String) (fps : Nat) (dry_run : Bool)
    (env : EncEnv) : List SeqRec → Nat × Nat → Except String (Nat × Nat)
  | [], acc => .ok acc
  | s :: ss, acc =>
    match batchStep output_dir lut_path fps dry_run env acc s with
    | .error e => .error e
    | .ok acc2 => batchLoop output_dir lut_path fps dry_run env ss acc2

/-- `main()` of batch_exr_to_editorial.py from validation to the final
`return 0 if fail_count == 0 else 1` (`input_dir_ok`/`lut_ok` are the two
pre-flight probes). -/
def batch_main (input_dir_ok lut_ok : Bool) (walk : List (String × List String))
    (filt : Option String) (output_dir lut_path : String) (fps : Nat)
    (dry_run : Bool) (env : EncEnv) : Except String Nat :=
  if !input_dir_ok then .ok 1
  else if !dry_run && !lut_ok then .ok 1
  else
    let sequences := find_exr_sequences walk filt
    if sequences.isEmpty then .ok 0
    else
      match batchLoop output_dir lut_path fps dry_run env sequences (0, 0) with
      | .error e => .error e
      | .ok pf => .ok (if pf.2 = 0 then 0 else 1)

/-- Process exit status of `sys.exit(main())`: the returned code, or 1 when an
uncaught exception terminates the interpreter. -/
def processExit : Except String Nat → Nat
  | .ok n => n
  | .error _ => 1

/- ===================== dng_to_exr_full_metadata.py ======================= -/

/-- One OIIO extra attribute: a `(name, type, value)` triple.  Types and
values are never inspected by the script, so they are carried as opaque
string tokens. -/
structure Attrib where
  name : String
  ty : String
  value : String
deriving DecidableEq, Repr

/-- `ImageSpec.attribute(name, type, value)` on the ordered attribute list:
replace the first attribute with that name in place, else append. -/
def setAttr : List Attrib → String → String → String → List Attrib
  | [], n, t, v => [⟨n, t, v⟩]
  | a :: as, n, t, v =>
    if a.name = n then ⟨n, t, v⟩ :: as else a :: setAttr as n t v

/-- Python `name.replace(":", "_")`. -/
def replaceColons (s : String) : String :=
  String.mk (s.data.map (fun c => if c == ':' then '_' else c))

/-- The rename rule of `convert_dng_to_exr`: `raw:*`/`oiio:*` names become
`"DNG:" + name.replace(":", "_")`; every other name is kept. -/
def renameAttr (n : String) : String :=
  if strStarts n "raw:" || strStarts n "oiio:" then "DNG:" ++ replaceColons n else n

/-- The compression value string `f"dwaa:{compression_level}"`. -/
def dwaaStr (level : Int) : String := "dwaa:" ++ toString level

/-- The attribute pipeline of `convert_dng_to_exr` on the output spec's extra
attributes: `out_spec = oiio.ImageSpec(in_spec)` copies the input's extra
attributes (OIIO's copy constructor copies `extra_attribs`), then the explicit
compression attribute is set, then the copy loop re-sets every input attribute
under its (possibly renamed) name. -/
def convert_attribs (inAttribs : List Attrib) (level : Int) : List Attrib :=
  let out0 := inAttribs
  let out1 := setAttr out0 "compression" "string" (dwaaStr level)
  inAttribs.foldl (fun out a => setAttr out (renameAttr a.name) a.ty a.value) out1

deriving instance DecidableEq for Except

/-- Per-file oracle for `convert_dng_to_exr`.  `readRes`: outer `.error` is a
Python exception raised while reading (caught by the function's
`except Exception`), inner `.error` is `input_buf.has_error` with its
`geterror()` text; `.ok` carries the input spec's extra attributes.
`writeRes`: outer `.error` is an exception raised during spec/buffer
construction or writing, inner `.error` is `write()` returning false. -/
structure DngFileEnv where
  readRes : Except String (Except String (List Attrib))
  writeRes : Except String (Except String Unit)
deriving DecidableEq, Repr

/-- `convert_dng_to_exr(input_path, output_path, compression_level)`:
returns `(success, message)`; the surrounding `try/except Exception` turns
every raised exception into `(False, str(e))`, so the function itself never
raises. -/
def convert_dng_to_exr (fe : DngFileEnv) (level : Int) : Bool × String :=
  match fe.readRes with
  | .error e => (false, e)
  | .ok (.error msg) => (false, "Read error: " ++ msg)
  | .ok (.ok attribs) =>
    let _out_spec := convert_attribs attribs level
    match fe.writeRes with
    | .error e => (false, e)
    | .ok (.error msg) => (false, "Write error: " ++ msg)
    | .ok (.ok _) => (true, "OK")

/-- The `for dng_file in dng_files` counting loop of `main`
(dng_to_exr_full_metadata): accumulates `(processed, failed)`. -/
def dngLoop (files : List DngFileEnv) (level : Int) : Nat × Nat :=
  files.foldl
    (fun acc fe =>
      if (convert_dng_to_exr fe level).1 then (acc.1 + 1, acc.2)
      else (acc.1, acc.2 + 1))
    (0, 0)

/-- Inputs of `main()` (dng_to_exr_full_metadata) after argument parsing. -/
structure DngArgs where
  input_exists : Bool
  input_is_dir : Bool
  compression_level : Int
  output_mkdir_raises : Bool
  dng_files : List DngFileEnv
deriving DecidableEq, Repr

/-- `main()` of dng_to_exr_full_metadata.py: pre-flight validation (each
failure calls `sys.exit(1)`), then the batch loop; after the loop the script
prints a summary and `main` returns normally, so a completed batch always
ends the process with status 0.  The result is
`(exit_status, processed, failed)`. -/
def dng_main (a : DngArgs) : Nat × Nat × Nat :=
  if !a.input_exists then (1, 0, 0)
  else if !a.input_is_dir then (1, 0, 0)
  else if a.compression_level < 30 ∨ 100 < a.compression_level then (1, 0, 0)
  else if a.output_mkdir_raises then (1, 0, 0)
  else if a.dng_files.isEmpty then (1, 0, 0)
  else
    let pf := dngLoop a.dng_files a.compression_level
    (0, pf.1, pf.2)

/-- Number of attributes with a given name. -/
def countName (n : String) (l : List Attrib) : Nat :=
  (l.filter (fun a => decide (a.name = n))).length

/-- First attribute with a given name (OIIO lookup order). -/
def findName (n : String) (l : List Attrib) : Option Attrib :=
  l.find? (fun a => decide (a.name = n))

/- ===================== concrete sample inputs =========================== -/

/-- A sequence record as the scanner would produce for
`/renders/shot.####.exr` frames 1000-1010. -/
def seqSample : SeqRec :=
  { dir := "/renders", head := "shot.", ext := ".exr", pad := 4,
    start := 1000, endFrame := 1010, count := 11 }

/-- Environment with no slate frame on disk. -/
def envNoSlate : EncEnv :=
  { pathExists := fun _ => false
    embeddedTc := fun _ => none
    makedirsRes := fun _ => none
    mkdtempRes := .ok "/mnt/caches/cache_ffmpeg/editorial_encode_w"
    run := fun _ => .done 0 "" "" }

/-- Environment in which every probe and tool succeeds. -/
def envOk : EncEnv :=
  { pathExists := fun _ => true
    embeddedTc := fun _ => none
    makedirsRes := fun _ => none
    mkdtempRes := .ok "/mnt/caches/cache_ffmpeg/editorial_encode_w"
    run := fun _ => .done 0 "" "" }

/-- Environment in which the slate frame exists but stage 1 raises
(e.g. the oiiotool binary is missing). -/
def envRaise : EncEnv :=
  { pathExists := fun _ => true
    embeddedTc := fun _ => none
    makedirsRes := fun _ => none
    mkdtempRes := .ok "/mnt/caches/cache_ffmpeg/editorial_encode_w"
    run := fun argv =>
      if argv.head? = some "oiiotool" then .raised "FileNotFoundError: oiiotool"
      else .done 0 "" "" }

/-- A DNG file whose read fails (`has_error`). -/
def feReadFail : DngFileEnv :=
  { readRes := .ok (.error "bad DNG"), writeRes := .ok (.ok ()) }

/-- A DNG file whose conversion succeeds. -/
def feOk : DngFileEnv :=
  { readRes := .ok (.ok []), writeRes := .ok (.ok ()) }

/-- Arguments for an archival batch of one failing file. -/
def dngArgsFail : DngArgs :=
  { input_exists := true, input_is_dir := true, compression_level := 45,
    output_mkdir_raises := false, dng_files := [feReadFail] }

/-- The exact ffmpeg command `encode_sequence` issues for `seqSample` under
`envOk` with output `/out/shot.mov` (used to witness C6). -/
def ffArgvSample : List String :=
  ffmpeg_cmd 24 SLATE_FRAME "/mnt/caches/cache_ffmpeg/editorial_encode_w"
    (vfChain "soup kitchen films"
      (shotIdOf (rstripChar (rstripChar seqSample.head '.') '_'))
      ("".trim)
      (basename "/out/shot.mov")
      SLATE_FRAME)
    (frame_to_timecode SLATE_FRAME 24)
    "/out/shot.mov"

/- ===================== helper lemmas ===================================== -/

theorem getLast?_mem {α : Type} {l : List α} {x : α} (h : l.getLast? = some x) :
    x ∈ l := by
  obtain ⟨hne, rfl⟩ := List.mem_getLast?_eq_getLast (l := l) (x := x) (by rw [h]; rfl)
  exact List.getLast_mem hne

/-- The counting fold of the archival batch loop is total and adds one to
exactly one of the two counters per file. -/
theorem dngLoop_foldl (level : Int) : ∀ (files : List DngFileEnv) (p f : Nat),
    (files.foldl
      (fun acc fe =>
        if (convert_dng_to_exr fe level).1 then (acc.1 + 1, acc.2)
        else (acc.1, acc.2 + 1)) (p, f)).1 +
    (files.foldl
      (fun acc fe =>
        if (convert_dng_to_exr fe level).1 then (acc.1 + 1, acc.2)
        else (acc.1, acc.2 + 1)) (p, f)).2 = p + f + files.length := by
  intro files
  induction files with
  | nil => intro p f; simp
  | cons fe fs ih =>
    intro p f
    by_cases hc : (convert_dng_to_exr fe level).1 = true
    · simp only [List.foldl_cons, hc, if_true]
      rw [ih (p + 1) f]
      simp; omega
    · simp only [List.foldl_cons, Bool.not_eq_true] at hc
      simp only [List.foldl_cons, hc, if_false, Bool.false_eq_true]
      rw [ih p (f + 1)]
      simp; omega

theorem dngLoop_all_fail (level : Int) : ∀ (files : List DngFileEnv) (p f : Nat),
    (∀ fe ∈ files, (convert_dng_to_exr fe level).1 = false) →
    files.foldl
      (fun acc fe =>
        if (convert_dng_to_exr fe level).1 then (acc.1 + 1, acc.2)
        else (acc.1, acc.2 + 1)) (p, f) = (p, f + files.length) := by
  intro files
  induction files with
  | nil => intro p f _; simp
  | cons fe fs ih =>
    intro p f hall
    have h0 : (convert_dng_to_exr fe level).1 = false := hall fe (by simp)
    simp only [List.foldl_cons, h0, Bool.false_eq_true, if_false]
    rw [ih p (f + 1) (fun x hx => hall x (by simp [hx]))]
    simp; omega

theorem batchLoop_all_fail (output_dir lut_path : String) (fps : Nat)
    (dry_run : Bool) (env : EncEnv) : ∀ (seqs : List SeqRec) (p f : Nat),
    (∀ s ∈ seqs,
      (encode_sequence s (outPathOf output_dir s) lut_path fps dry_run env).1 =
        Except.ok false) →
    batchLoop output_dir lut_path fps dry_run env seqs (p, f) =
      .ok (p, f + seqs.length) := by
  intro seqs
  induction seqs with
  | nil => intro p f _; simp [batchLoop]
  | cons s ss ih =>
    intro p f hall
    have h0 := hall s (by simp)
    simp only [batchLoop, batchStep, h0]
    rw [ih p (f + 1) (fun x hx => hall x (by simp [hx]))]
    simp; omega

/-- The `try` body of `encode_sequence` performs no `mkdtemp` effect. -/
theorem encodeBody_no_mkdtemp (seq : SeqRec) (ip op lp : String) (fps : Nat)
    (tc : String) (sf : Nat) (td : String) (env : EncEnv) (d : String) :
    Event.mkdtemp d ∉ (encodeBody seq ip op lp fps tc sf td env).2 := by
  unfold encodeBody
  dsimp only []
  rcases h1 : env.run (oiio_cmd ip lp td) with e | ⟨rc, out, err⟩
  · simp [h1]
  · by_cases hrc : rc = 0
    · rcases h2 : env.makedirsRes (dirname op) with _ | e2
      · rcases h3 : env.run ["date", "+%Y%m%d"] with e3 | ⟨rc3, out3, err3⟩
        · simp_all
        · rcases h4 : env.run (ffmpeg_cmd fps sf td
            (vfChain "soup kitchen films"
              (shotIdOf (rstripChar (rstripChar seq.head '.') '_')) out3.trim
              (basename op) sf) tc op) with e4 | ⟨rc4, out4, err4⟩
          · simp_all
          · by_cases hrc4 : rc4 = 0 <;> by_cases hout : env.pathExists op <;>
              simp_all
      · simp_all
    · simp_all

/-- The `try` body of `encode_sequence` only runs tools: every effect is a
`runTool` or a `makedirs`. -/
theorem encodeBody_runTool (seq : SeqRec) (ip op lp : String) (fps : Nat)
    (tc : String) (sf : Nat) (td : String) (env : EncEnv) (argv : List String)
    (h : Event.runTool argv ∈ (encodeBody seq ip op lp fps tc sf td env).2) :
    argv = oiio_cmd ip lp td ∨ argv = ["date", "+%Y%m%d"] ∨
    ∃ vf, argv = ffmpeg_cmd fps sf td vf tc op := by
  unfold encodeBody at h
  dsimp only [] at h
  split at h
  · simp at h; exact Or.inl h
  · split at h
    · simp at h; exact Or.inl h
    · split at h
      · simp at h; exact Or.inl h
      · split at h
        · simp at h
          rcases h with h | h
          · exact Or.inl h
          · exact Or.inr (Or.inl h)
        · split at h <;> (try split at h) <;> (try split at h) <;>
            (simp at h
             rcases h with h | h | h
             · exact Or.inl h
             · exact Or.inr (Or.inl h)
             · exact Or.inr (Or.inr ⟨_, h⟩))

/- ===================== Theorems: C7 ====================================== -/

/-- C7: for every non-negative frame number and positive frame rate the
synthetic timecode equals `hours = frame // (fps*3600)`,
`minutes = (frame % (fps*3600)) // (fps*60)`, `seconds = (frame % (fps*60)) // fps`,
`frames = frame % fps`, each zero-padded to two digits and joined with colons;
in particular frame 1000 at 24 fps gives exactly "00:00:41:16". -/
theorem c7_timecode_formula (frame fps : Nat) (hfps : 0 < fps) :
    frame_to_timecode frame fps =
      padNum (frame / (fps * 3600)) 2 ++ ":" ++
      padNum ((frame % (fps * 3600)) / (fps * 60)) 2 ++ ":" ++
      padNum ((frame % (fps * 60)) / fps) 2 ++ ":" ++
      padNum (frame % fps) 2 ∧
    frame_to_timecode 1000 24 = "00:00:41:16" := by
  exact ⟨rfl, by decide⟩

/-- Witness for C7 at frame 1000, 24 fps. -/
theorem c7_timecode_formula_witness :
    0 < 24 ∧ frame_to_timecode 1000 24 = "00:00:41:16" :=
  ⟨by decide, (c7_timecode_formula 1000 24 (by decide)).2⟩


/- ===================== Theorems: C1 ====================================== -/

/-- C1 (amended): for the editorial entry point, a batch run whose loop
completes exits with 0 iff zero items failed; the archival entry point, after
any completed batch run, always ends the process with status 0 (its `main`
returns without `sys.exit`), failures or not — only pre-flight validation
failures produce a non-zero status there. -/
theorem c1_exit_status_amended :
    (∀ (walk : List (String × List String)) (filt : Option String)
        (output_dir lut_path : String) (fps : Nat) (dry_run : Bool)
        (env : EncEnv) (p f : Nat),
        batchLoop output_dir lut_path fps dry_run env
            (find_exr_sequences walk filt) (0, 0) = .ok (p, f) →
        processExit
            (batch_main true true walk filt output_dir lut_path fps dry_run env) =
          (if f = 0 then 0 else 1)) ∧
    (∀ a : DngArgs, a.input_exists = true → a.input_is_dir = true →
        ¬ (a.compression_level < 30 ∨ 100 < a.compression_level) →
        a.output_mkdir_raises = false → a.dng_files ≠ [] →
        (dng_main a).1 = 0) := by
  constructor
  · intro walk filt od lp fps dr env p f hloop
    cases hseq : find_exr_sequences walk filt with
    | nil =>
      rw [hseq] at hloop
      have h2 : (Except.ok ((0 : Nat), (0 : Nat)) : Except String (Nat × Nat)) =
          .ok (p, f) := hloop
      injection h2 with h3
      injection h3 with h4 h5
      subst h4; subst h5
      simp [batch_main, hseq, processExit]
    | cons s ss =>
      rw [hseq] at hloop
      simp [batch_main, hseq, hloop, processExit, -Prod.mk_zero_zero]
  · intro a h1 h2 h3 h4 h5
    rcases hf : a.dng_files with _ | ⟨x, xs⟩
    · exact absurd hf h5
    · simp [dng_main, h1, h2, h3, h4, hf]

/-- C1 witness: a completed editorial run with no sequences exits 0; a valid
archival run over one (failing) file exits 0. -/
theorem c1_exit_status_witness :
    processExit (batch_main true true [] none "/out" "/lut" 24 false envNoSlate) =
      (if 0 = 0 then (0 : Nat) else 1) ∧
    (dng_main dngArgsFail).1 = 0 :=
  ⟨c1_exit_status_amended.1 [] none "/out" "/lut" 24 false envNoSlate 0 0 rfl,
   c1_exit_status_amended.2 dngArgsFail rfl rfl (by decide) rfl (by decide)⟩

/-- C1 counterexample: an archival batch in which one item failed
(`failed = 1`) still exits with status 0, refuting "if at least one item
failed, the process exits with a non-zero status". -/
theorem c1_exit_status_counterexample :
    ¬ (0 < (dng_main dngArgsFail).2.2 → (dng_main dngArgsFail).1 ≠ 0) := by
  decide

/- ===================== Theorems: C3 ====================================== -/

/-- C3 (amended): in the archival converter every per-item failure (read
errors, write errors, and any raised exception) is absorbed into the failure
counter, the loop always completes, and an all-failing batch of N files
reports `processed = 0, failed = N`; in the editorial batch runner the
designed per-item failure modes (the ones signalled by a `False` return:
missing slate frame, stage failures, missing output) are likewise counted and
an all-failing batch completes with `(0, N)` — but an exception raised during
an item is not caught there (see the counterexample). -/
theorem c3_item_failures_amended :
    (∀ (files : List DngFileEnv) (level : Int),
        (dngLoop files level).1 + (dngLoop files level).2 = files.length ∧
        ((∀ fe ∈ files, (convert_dng_to_exr fe level).1 = false) →
          dngLoop files level = (0, files.length))) ∧
    (∀ (output_dir lut_path : String) (fps : Nat) (dry_run : Bool)
        (env : EncEnv) (seqs : List SeqRec),
        (∀ s ∈ seqs,
          (encode_sequence s (outPathOf output_dir s) lut_path fps dry_run env).1 =
            Except.ok false) →
        batchLoop output_dir lut_path fps dry_run env seqs (0, 0) =
          .ok (0, seqs.length)) := by
  refine ⟨fun files level => ⟨?_, ?_⟩, ?_⟩
  · have h := dngLoop_foldl level files 0 0
    simpa [dngLoop] using h
  · intro hall
    have h := dngLoop_all_fail level files 0 0 hall
    simpa [dngLoop] using h
  · intro od lp fps dr env seqs hall
    have h := batchLoop_all_fail od lp fps dr env seqs 0 0 hall
    simpa using h

/-- C3 witness: a one-file all-failing archival batch reports (0, 1); a
one-sequence editorial batch whose item fails (missing slate) completes with
(0, 1). -/
theorem c3_item_failures_witness :
    dngLoop [feReadFail] 45 = (0, 1) ∧
    batchLoop "/out" "/lut" 24 false envNoSlate [seqSample] (0, 0) = .ok (0, 1) :=
 by
  constructor
  · simpa using (c3_item_failures_amended.1 [feReadFail] 45).2 (by decide)
  · simpa using c3_item_failures_amended.2 "/out" "/lut" 24 false envNoSlate [seqSample] (by decide)

/-- C3 counterexample: in the editorial batch runner an exception raised
while processing an item (here: stage 1 raises `FileNotFoundError` because
the oiiotool binary is missing) propagates out of the loop — the batch does
not complete and no counts are reported, refuting "no per-item failure raises
out of the Batch Runner's loop". -/
theorem c3_item_failures_counterexample :
    batchLoop "/out" "/lut" 24 false envRaise [seqSample] (0, 0) =
      Except.error "FileNotFoundError: oiiotool" := by
  decide

/- ===================== Theorems: C5 ====================================== -/

/-- C5: when the anchor-frame (slate) file does not exist, `encode_sequence`
returns `False` at once with an empty effect trace — neither oiiotool nor
ffmpeg (nor any scratch-directory operation) is invoked and nothing is
raised — and the batch loop counts the item as failed and continues. -/
theorem c5_missing_anchor (seq : SeqRec) (env : EncEnv)
    (h : env.pathExists (slatePathOf seq) = false) :
    (∀ (output_path lut_path : String) (fps : Nat) (dry_run : Bool),
        encode_sequence seq output_path lut_path fps dry_run env =
          (Except.ok false, [])) ∧
    (∀ (output_dir lut_path : String) (fps : Nat) (dry_run : Bool) (p f : Nat),
        batchStep output_dir lut_path fps dry_run env (p, f) seq =
          Except.ok (p, f + 1)) := by
  have h1 : ∀ (output_path lut_path : String) (fps : Nat) (dry_run : Bool),
      encode_sequence seq output_path lut_path fps dry_run env =
        (Except.ok false, []) := by
    intro op lp fps dr
    simp [encode_sequence, h]
  exact ⟨h1, fun od lp fps dr p f => by simp [batchStep, h1]⟩

/-- C5 witness at a concrete sequence and environment. -/
theorem c5_missing_anchor_witness :
    encode_sequence seqSample (outPathOf "/out" seqSample) "/lut" 24 false
        envNoSlate = (Except.ok false, []) ∧
    batchStep "/out" "/lut" 24 false envNoSlate (3, 4) seqSample =
      Except.ok (3, 5) :=
  ⟨(c5_missing_anchor seqSample envNoSlate rfl).1 (outPathOf "/out" seqSample)
      "/lut" 24 false,
   (c5_missing_anchor seqSample envNoSlate rfl).2 "/out" "/lut" 24 false 3 4⟩

/- ===================== Theorems: C9 ====================================== -/

/-- C9: on every execution path of `encode_sequence` that creates the
ephemeral scratch directory (success, color-stage failure, encode-stage
failure, missing output, or an exception raised during either stage), the
scratch directory is removed before the call returns: every `mkdtemp` effect
in the trace is matched by an `rmtree` effect for the same directory. -/
theorem c9_scratch_cleanup (seq : SeqRec) (output_path lut_path : String)
    (fps : Nat) (dry_run : Bool) (env : EncEnv) (d : String)
    (h : Event.mkdtemp d ∈ (encode_sequence seq output_path lut_path fps dry_run env).2) :
    Event.rmtree d ∈ (encode_sequence seq output_path lut_path fps dry_run env).2 := by
  by_cases hex : env.pathExists (slatePathOf seq)
  · by_cases hdry : dry_run
    · simp [encode_sequence, hex, hdry] at h
    · rcases hmk : env.makedirsRes temp_base with _ | e2
      · rcases hmt : env.mkdtempRes with e3 | td
        · simp [encode_sequence, hex, hdry, hmk, hmt] at h
        · simp only [encode_sequence, hex, hdry, hmk, hmt, if_true, if_false,
            Bool.false_eq_true, ite_false, ite_true, List.mem_cons,
            List.mem_append, List.mem_singleton] at h ⊢
          rcases h with h | h | h | h
          · exact absurd h (by simp)
          · have hd : d = td := by
              injection h
            simp [hd]
          · exact absurd h (encodeBody_no_mkdtemp _ _ _ _ _ _ _ _ _ _)
          · exact absurd h (by simp)
      · simp [encode_sequence, hex, hdry, hmk] at h
  · simp [encode_sequence, hex] at h

/-- C9 witness: a run that creates the scratch directory also removes it. -/
theorem c9_scratch_cleanup_witness :
    Event.rmtree "/mnt/caches/cache_ffmpeg/editorial_encode_w" ∈
      (encode_sequence seqSample "/out/shot.mov" "/lut" 24 false envOk).2 :=
  c9_scratch_cleanup seqSample "/out/shot.mov" "/lut" 24 false envOk
    "/mnt/caches/cache_ffmpeg/editorial_encode_w" (by decide)

/- ===================== Theorems: C2 and C8 =============================== -/

theorem setAttr_find_self (n t v : String) : ∀ l : List Attrib,
    findName n (setAttr l n t v) = some ⟨n, t, v⟩ := by
  intro l
  induction l with
  | nil => simp [setAttr, findName, List.find?]
  | cons a as ih =>
    by_cases hn : a.name = n
    · simp [setAttr, hn, findName, List.find?]
    · simp only [setAttr, hn, if_false, ite_false]
      simpa [findName, List.find?, hn] using ih

theorem setAttr_find_other (n t v m : String) (hne : m ≠ n) : ∀ l : List Attrib,
    findName m (setAttr l n t v) = findName m l := by
  intro l
  induction l with
  | nil => simp [setAttr, findName, List.find?, hne.symm]
  | cons a as ih =>
    by_cases hn : a.name = n
    · have ham : ¬ (a.name = m) := by rw [hn]; exact hne.symm
      simp [setAttr, hn, findName, List.find?, hne.symm, ham]
    · simp only [setAttr, hn, if_false, ite_false]
      by_cases hm : a.name = m
      · simp [findName, List.find?, hm]
      · simpa [findName, List.find?, hm] using ih

theorem setAttr_count_self (n t v : String) : ∀ l : List Attrib,
    countName n (setAttr l n t v) = max 1 (countName n l) := by
  intro l
  induction l with
  | nil => simp [setAttr, countName]
  | cons a as ih =>
    by_cases hn : a.name = n
    · simp [setAttr, hn, countName, List.filter]
    · simp only [setAttr, hn, if_false, ite_false]
      have h2 : countName n (a :: setAttr as n t v) = countName n (setAttr as n t v) := by
        simp [countName, List.filter, hn]
      have h3 : countName n (a :: as) = countName n as := by
        simp [countName, List.filter, hn]
      rw [h2, h3, ih]

theorem setAttr_count_other (n t v m : String) (hne : m ≠ n) : ∀ l : List Attrib,
    countName m (setAttr l n t v) = countName m l := by
  intro l
  induction l with
  | nil => simp [setAttr, countName, List.filter, hne.symm]
  | cons a as ih =>
    by_cases hn : a.name = n
    · have ham : ¬ (a.name = m) := by rw [hn]; exact hne.symm
      simp [setAttr, hn, countName, List.filter, hne.symm, ham]
    · simp only [setAttr, hn, if_false, ite_false]
      by_cases hm : a.name = m
      · have h2 : countName m (a :: setAttr as n t v) =
            countName m (setAttr as n t v) + 1 := by
          simp [countName, List.filter, hm]
        have h3 : countName m (a :: as) = countName m as + 1 := by
          simp [countName, List.filter, hm]
        rw [h2, h3, ih]
      · have h2 : countName m (a :: setAttr as n t v) =
            countName m (setAttr as n t v) := by
          simp [countName, List.filter, hm]
        have h3 : countName m (a :: as) = countName m as := by
          simp [countName, List.filter, hm]
        rw [h2, h3, ih]

theorem renameAttr_eq_compression {n : String} (h : renameAttr n = "compression") :
    n = "compression" := by
  unfold renameAttr at h
  split at h
  · exfalso
    have hd := congrArg String.data h
    rw [String.data_append] at hd
    simp [replaceColons] at hd
  · exact h

theorem getLast?_cons_of_ne_nil {α : Type} (x : α) {xs : List α} (h : xs ≠ []) :
    (x :: xs).getLast? = xs.getLast? := by
  cases xs with
  | nil => exact absurd rfl h
  | cons y ys => exact List.getLast?_cons_cons

/-- The attribute-copy loop of `convert_dng_to_exr` keeps exactly one
`compression` attribute and leaves it holding the value of the LAST source
attribute named `compression` (or the pre-loop value when the source has
none). -/
theorem convert_fold_find (level : Int) :
    ∀ (l out : List Attrib), countName "compression" out = 1 →
      countName "compression"
          (l.foldl (fun o a => setAttr o (renameAttr a.name) a.ty a.value) out) = 1 ∧
      (l.filter (fun a => decide (a.name = "compression")) = [] →
        findName "compression"
            (l.foldl (fun o a => setAttr o (renameAttr a.name) a.ty a.value) out) =
          findName "compression" out) ∧
      (∀ a2, (l.filter (fun a => decide (a.name = "compression"))).getLast? = some a2 →
        findName "compression"
            (l.foldl (fun o a => setAttr o (renameAttr a.name) a.ty a.value) out) =
          some ⟨"compression", a2.ty, a2.value⟩) := by
  intro l
  induction l with
  | nil =>
    intro out hout
    refine ⟨hout, fun _ => rfl, fun a2 h2 => ?_⟩
    simp at h2
  | cons a as ih =>
    intro out hout
    by_cases hn : a.name = "compression"
    · have hr : renameAttr a.name = "compression" := by rw [hn]; decide
      have hc2 : countName "compression"
          (setAttr out (renameAttr a.name) a.ty a.value) = 1 := by
        rw [hr, setAttr_count_self, hout]
        decide
      have hIH := ih (setAttr out (renameAttr a.name) a.ty a.value) hc2
      have hfl : (a :: as).filter (fun a => decide (a.name = "compression")) =
          a :: as.filter (fun a => decide (a.name = "compression")) := by
        simp [List.filter, hn]
      refine ⟨by simpa using hIH.1, ?_, ?_⟩
      · intro hemp
        rw [hfl] at hemp
        exact absurd hemp (by simp)
      · intro a2 hlast
        rw [hfl] at hlast
        rw [List.foldl_cons]
        cases hx : as.filter (fun a => decide (a.name = "compression")) with
        | nil =>
          rw [hx] at hlast
          simp only [List.getLast?_singleton, Option.some.injEq] at hlast
          subst hlast
          rw [hIH.2.1 hx, hr, setAttr_find_self]
        | cons y ys =>
          rw [hx] at hlast
          rw [getLast?_cons_of_ne_nil a (by simp), ← hx] at hlast
          exact hIH.2.2 a2 hlast
    · have hr : renameAttr a.name ≠ "compression" := by
        intro hx; exact hn (renameAttr_eq_compression hx)
      have hc2 : countName "compression"
          (setAttr out (renameAttr a.name) a.ty a.value) = 1 := by
        rw [setAttr_count_other _ _ _ _ hr.symm, hout]
      have hIH := ih (setAttr out (renameAttr a.name) a.ty a.value) hc2
      have hfl : (a :: as).filter (fun a => decide (a.name = "compression")) =
          as.filter (fun a => decide (a.name = "compression")) := by
        simp [List.filter, hn]
      refine ⟨by simpa using hIH.1, ?_, ?_⟩
      · intro hemp
        rw [hfl] at hemp
        rw [List.foldl_cons, hIH.2.1 hemp,
          setAttr_find_other _ _ _ _ hr.symm]
      · intro a2 hlast
        rw [hfl] at hlast
        rw [List.foldl_cons]
        exact hIH.2.2 a2 hlast

/-- C2 (amended): the explicit compression attribute is set on the output
spec BEFORE the attribute copy loop (line 48 precedes lines 51-64), so for
every input attribute set containing exactly one source attribute named
`compression`, the output's compression attribute equals that SOURCE
attribute's type and value — the configured `dwaa:level` setting is
overwritten by the copy loop; the attribute is never duplicated. -/
theorem c2_compression_amended (inAttribs : List Attrib) (t v : String)
    (level : Int)
    (h : inAttribs.filter (fun a => decide (a.name = "compression")) =
      [⟨"compression", t, v⟩]) :
    findName "compression" (convert_attribs inAttribs level) =
      some ⟨"compression", t, v⟩ ∧
    countName "compression" (convert_attribs inAttribs level) = 1 := by
  have hc : countName "compression" inAttribs = 1 := by
    unfold countName; rw [h]; rfl
  have h1 : countName "compression"
      (setAttr inAttribs "compression" "string" (dwaaStr level)) = 1 := by
    rw [setAttr_count_self, hc]
    decide
  have hF := convert_fold_find level inAttribs
    (setAttr inAttribs "compression" "string" (dwaaStr level)) h1
  unfold convert_attribs
  dsimp only []
  refine ⟨?_, hF.1⟩
  exact hF.2.2 ⟨"compression", t, v⟩ (by rw [h]; rfl)

/-- C2 witness: a source attribute set holding `compression = zip` yields an
output whose compression attribute is the source value, present once. -/
theorem c2_compression_witness :
    ([⟨"compression", "string", "zip"⟩] : List Attrib).filter
        (fun a => decide (a.name = "compression")) =
      [⟨"compression", "string", "zip"⟩] ∧
    findName "compression" (convert_attribs [⟨"compression", "string", "zip"⟩] 45) =
      some ⟨"compression", "string", "zip"⟩ :=
  ⟨by decide,
   (c2_compression_amended [⟨"compression", "string", "zip"⟩] "string" "zip" 45
      (by decide)).1⟩

/-- C2 counterexample: with a source attribute `compression = zip` and
configured level 45, the output's compression attribute is `zip`, not
`dwaa:45` — the copy loop runs AFTER the explicit compression set and
overwrites it, refuting the claim. -/
theorem c2_compression_counterexample :
    ¬ findName "compression" (convert_attribs [⟨"compression", "string", "zip"⟩] 45) =
        some ⟨"compression", "string", dwaaStr 45⟩ := by
  decide

/-- C8 (code bug): for a source attribute `raw:white_balance`, the output
spec contains the renamed key `DNG:raw_white_balance` with identical
type/value AND STILL contains the original colliding name: the output spec is
copy-constructed from the input spec (carrying all extra attributes) and the
copy loop only adds the renamed key, never removing the original, although
the script's own docstring and summary say the fields are renamed. -/
theorem c8_rename_keeps_original :
    convert_attribs [⟨"raw:white_balance", "string", "as_shot"⟩] 45 =
      [⟨"raw:white_balance", "string", "as_shot"⟩,
       ⟨"compression", "string", "dwaa:45"⟩,
       ⟨"DNG:raw_white_balance", "string", "as_shot"⟩] ∧
    (convert_attribs [⟨"raw:white_balance", "string", "as_shot"⟩] 45).any
      (fun a => a.name == "raw:white_balance") = true := by
  exact ⟨by decide, by decide⟩

/- ===================== Theorems: C6 ====================================== -/

/-- C6: whenever the anchor frame exists and the video encoder is invoked,
the `-start_number` argument passed to it is the fixed slate frame
`SLATE_FRAME = 1000` itself — for every sequence record, whatever
`start_frame` the scanner recorded. -/
theorem c6_encode_start_slate (seq : SeqRec) (output_path lut_path : String)
    (fps : Nat) (dry_run : Bool) (env : EncEnv) (argv : List String)
    (hex : env.pathExists (slatePathOf seq) = true)
    (hmem : Event.runTool argv ∈
      (encode_sequence seq output_path lut_path fps dry_run env).2)
    (hff : argv.head? = some "ffmpeg") :
    argv.get? 6 = some "-start_number" ∧
    argv.get? 7 = some (toString SLATE_FRAME) := by
  by_cases hdry : dry_run
  · simp [encode_sequence, hex, hdry] at hmem
  · rcases hmk : env.makedirsRes temp_base with _ | e2
    · rcases hmt : env.mkdtempRes with e3 | td
      · simp [encode_sequence, hex, hdry, hmk, hmt] at hmem
      · simp only [encode_sequence, hex, hdry, hmk, hmt, if_true, if_false,
          Bool.false_eq_true, ite_false, ite_true, List.mem_cons,
          List.mem_append, List.mem_singleton] at hmem
        rcases hmem with h | h | h | h
        · exact absurd h (by simp)
        · exact absurd h (by simp)
        · rcases encodeBody_runTool _ _ _ _ _ _ _ _ _ _ h with h5 | h5 | ⟨vf, h5⟩
          · rw [h5] at hff; simp [oiio_cmd] at hff
          · rw [h5] at hff; simp at hff
          · rw [h5]
            exact ⟨rfl, rfl⟩
        · exact absurd h (by simp)
    · simp [encode_sequence, hex, hdry, hmk] at hmem

/-- C6 witness: in a fully successful concrete run the issued ffmpeg command
carries `-start_number 1000` even though the sequence's recorded start frame
is also 1000 only by the slate policy (the record's `start` field is ignored). -/
theorem c6_encode_start_slate_witness :
    ffArgvSample.get? 6 = some "-start_number" ∧
    ffArgvSample.get? 7 = some (toString SLATE_FRAME) :=
  c6_encode_start_slate seqSample "/out/shot.mov" "/lut" 24 false envOk
    ffArgvSample rfl
    (by simp [encode_sequence, encodeBody, envOk, ffArgvSample, slatePathOf])
    rfl

/- ============== lexicographic order vs numeric frame order =============== -/

theorem charListLe_refl : ∀ l : List Char, charListLe l l = true := by
  intro l
  induction l with
  | nil => rfl
  | cons a as ih => simp [charListLe, Nat.lt_irrefl, ih]

theorem charListLe_total : ∀ a b : List Char,
    charListLe a b = true ∨ charListLe b a = true := by
  intro a
  induction a with
  | nil => intro b; exact Or.inl rfl
  | cons x xs ih =>
    intro b
    cases b with
    | nil => exact Or.inr rfl
    | cons y ys =>
      by_cases h1 : x.toNat < y.toNat
      · exact Or.inl (by simp [charListLe, h1])
      · by_cases h2 : y.toNat < x.toNat
        · exact Or.inr (by simp [charListLe, h1, h2])
        · rcases ih ys with h | h
          · exact Or.inl (by simp [charListLe, h1, h2, h])
          · exact Or.inr (by simp [charListLe, h1, h2, h])

theorem charListLe_trans : ∀ a b c : List Char, charListLe a b = true →
    charListLe b c = true → charListLe a c = true := by
  intro a
  induction a with
  | nil => intro b c _ _; rfl
  | cons x xs ih =>
    intro b c h1 h2
    cases b with
    | nil => simp [charListLe] at h1
    | cons y ys =>
      cases c with
      | nil => simp [charListLe] at h2
      | cons z zs =>
        simp only [charListLe] at h1 h2 ⊢
        by_cases hxy : x.toNat < y.toNat
        · by_cases hyz : y.toNat < z.toNat
          · simp [Nat.lt_trans hxy hyz]
          · by_cases hzy : z.toNat < y.toNat
            · simp [hyz, hzy] at h2
            · have hxz : x.toNat < z.toNat := by omega
              simp [hxz]
        · by_cases hyx : y.toNat < x.toNat
          · simp [hxy, hyx] at h1
          · simp only [hxy, hyx, if_false, ite_false] at h1
            by_cases hyz : y.toNat < z.toNat
            · have hxz : x.toNat < z.toNat := by omega
              simp [hxz]
            · by_cases hzy : z.toNat < y.toNat
              · simp [hyz, hzy] at h2
              · simp only [hyz, hzy, if_false, ite_false] at h2
                have hxz : ¬ x.toNat < z.toNat := by omega
                have hzx : ¬ z.toNat < x.toNat := by omega
                simp only [hxz, hzx, if_false, ite_false]
                exact ih ys zs h1 h2

theorem charListLe_append_same : ∀ (H x y : List Char),
    charListLe (H ++ x) (H ++ y) = charListLe x y := by
  intro H
  induction H with
  | nil => intro x y; rfl
  | cons c cs ih =>
    intro x y
    simp only [List.cons_append, charListLe, Nat.lt_irrefl, if_false, ite_false]
    exact ih x y

theorem charListLe_append_eqlen (z : List Char) : ∀ (x y : List Char),
    x.length = y.length → charListLe (x ++ z) (y ++ z) = charListLe x y := by
  intro x
  induction x with
  | nil =>
    intro y hlen
    have hy : y = [] := List.length_eq_zero.mp hlen.symm
    subst hy
    simp [charListLe_refl]
  | cons a as ih =>
    intro y hlen
    cases y with
    | nil => simp at hlen
    | cons b bs =>
      have hl2 : as.length = bs.length := by simpa using hlen
      simp only [List.cons_append, charListLe]
      by_cases h1 : a.toNat < b.toNat
      · simp [h1]
      · by_cases h2 : b.toNat < a.toNat
        · simp [h1, h2]
        · simp only [h1, h2, if_false, ite_false]
          exact ih bs hl2

theorem digitsToNat_aux : ∀ (l : List Char) (a : Nat),
    l.foldl (fun acc c => 10 * acc + digitVal c) a =
      a * 10 ^ l.length + digitsToNat l := by
  intro l
  induction l with
  | nil => intro a; simp [digitsToNat]
  | cons c cs ih =>
    intro a
    simp only [List.foldl_cons, digitsToNat, List.length_cons]
    rw [ih (10 * a + digitVal c), ih (10 * 0 + digitVal c)]
    ring

theorem digitsToNat_cons (c : Char) (cs : List Char) :
    digitsToNat (c :: cs) = digitVal c * 10 ^ cs.length + digitsToNat cs := by
  show (c :: cs).foldl (fun acc c => 10 * acc + digitVal c) 0 = _
  simp only [List.foldl_cons]
  rw [digitsToNat_aux]
  ring_nf

theorem digitsToNat_lt_pow : ∀ (l : List Char), (∀ c ∈ l, c.isDigit = true) →
    digitsToNat l < 10 ^ l.length := by
  intro l
  induction l with
  | nil => intro _; simp [digitsToNat]
  | cons c cs ih =>
    intro hd
    have h9 : digitVal c ≤ 9 := by
      have hc := hd c (by simp)
      have hhi : c.toNat ≤ 57 := by
        simp [Char.isDigit] at hc
        exact hc.2
      unfold digitVal
      omega
    have hlt := ih (fun x hx => hd x (by simp [hx]))
    rw [digitsToNat_cons, List.length_cons]
    calc digitVal c * 10 ^ cs.length + digitsToNat cs
        < digitVal c * 10 ^ cs.length + 10 ^ cs.length := Nat.add_lt_add_left hlt _
      _ = (digitVal c + 1) * 10 ^ cs.length := by ring
      _ ≤ 10 * 10 ^ cs.length := Nat.mul_le_mul_right _ (by omega)
      _ = 10 ^ (cs.length + 1) := by ring

theorem digits_le_iff : ∀ (d1 d2 : List Char), d1.length = d2.length →
    (∀ c ∈ d1, c.isDigit = true) → (∀ c ∈ d2, c.isDigit = true) →
    (charListLe d1 d2 = true ↔ digitsToNat d1 ≤ digitsToNat d2) := by
  intro d1
  induction d1 with
  | nil =>
    intro d2 hlen _ _
    have hd2 : d2 = [] := List.length_eq_zero.mp hlen.symm
    subst hd2
    simp [charListLe]
  | cons a as ih =>
    intro d2 hlen hd1 hd2
    cases d2 with
    | nil => simp at hlen
    | cons b bs =>
      have hl2 : as.length = bs.length := by simpa using hlen
      have hba : 48 ≤ a.toNat ∧ a.toNat ≤ 57 := by
        have := hd1 a (by simp); simpa [Char.isDigit] using this
      have hbb : 48 ≤ b.toNat ∧ b.toNat ≤ 57 := by
        have := hd2 b (by simp); simpa [Char.isDigit] using this
      have hbnd1 : digitsToNat as < 10 ^ bs.length := by
        rw [← hl2]; exact digitsToNat_lt_pow as (fun x hx => hd1 x (by simp [hx]))
      have hbnd2 : digitsToNat bs < 10 ^ bs.length :=
        digitsToNat_lt_pow bs (fun x hx => hd2 x (by simp [hx]))
      rw [digitsToNat_cons, digitsToNat_cons, hl2]
      simp only [charListLe]
      by_cases h1 : a.toNat < b.toNat
      · have hdv : digitVal a < digitVal b := by unfold digitVal; omega
        have hlt : digitVal a * 10 ^ bs.length + digitsToNat as <
            digitVal b * 10 ^ bs.length + digitsToNat bs := by
          calc digitVal a * 10 ^ bs.length + digitsToNat as
              < digitVal a * 10 ^ bs.length + 10 ^ bs.length :=
                Nat.add_lt_add_left hbnd1 _
            _ = (digitVal a + 1) * 10 ^ bs.length := by ring
            _ ≤ digitVal b * 10 ^ bs.length :=
                Nat.mul_le_mul_right _ (by omega)
            _ ≤ digitVal b * 10 ^ bs.length + digitsToNat bs :=
                Nat.le_add_right _ _
        simp [h1, Nat.le_of_lt hlt]
      · by_cases h2 : b.toNat < a.toNat
        · have hdv : digitVal b < digitVal a := by unfold digitVal; omega
          have hlt : digitVal b * 10 ^ bs.length + digitsToNat bs <
              digitVal a * 10 ^ bs.length + digitsToNat as := by
            calc digitVal b * 10 ^ bs.length + digitsToNat bs
                < digitVal b * 10 ^ bs.length + 10 ^ bs.length :=
                  Nat.add_lt_add_left hbnd2 _
              _ = (digitVal b + 1) * 10 ^ bs.length := by ring
              _ ≤ digitVal a * 10 ^ bs.length :=
                  Nat.mul_le_mul_right _ (by omega)
              _ ≤ digitVal a * 10 ^ bs.length + digitsToNat as :=
                  Nat.le_add_right _ _
          simp [h1, h2]
          omega
        · have hdv : digitVal a = digitVal b := by unfold digitVal; omega
          rw [hdv]
          simp only [h1, h2, if_false, ite_false]
          rw [Nat.add_le_add_iff_left]
          exact ih bs hl2 (fun x hx => hd1 x (by simp [hx]))
            (fun x hx => hd2 x (by simp [hx]))

/- ============== soundness of the filename split ========================== -/

theorem splitRev_sound : ∀ (rev hr dr er : List Char),
    splitRev rev = some (hr, dr, er) →
    rev = er ++ dr ++ hr ∧ dr ≠ [] ∧ ∀ c ∈ dr, c.isDigit = true := by
  intro rev hr dr er h
  unfold splitRev at h
  dsimp only [] at h
  split at h
  · exact absurd h (by simp)
  · rename_i c rest hdw
    split at h
    · exact absurd h (by simp)
    · split at h
      · exact absurd h (by simp)
      · rename_i hdig
        injection h with h2
        have hhr : rest.dropWhile (fun c => c.isDigit) = hr := congrArg Prod.fst h2
        have hdr : rest.takeWhile (fun c => c.isDigit) = dr := by
          have := congrArg Prod.snd h2
          exact congrArg Prod.fst this
        have her : rev.takeWhile (fun c => !(c == '.')) ++ [c] = er := by
          have := congrArg Prod.snd h2
          exact congrArg Prod.snd this
        refine ⟨?_, ?_, ?_⟩
        · have hsplit := List.takeWhile_append_dropWhile
            (p := fun c => !(c == '.')) (l := rev)
          have hrest := List.takeWhile_append_dropWhile
            (p := fun c => c.isDigit) (l := rest)
          rw [← hsplit, hdw, ← her, ← hdr, ← hhr, ← hrest]
          simp
        · intro hx
          rw [← hdr] at hx
          rw [hx] at hdig
          simp at hdig
        · intro x hx
          rw [← hdr] at hx
          exact List.mem_takeWhile_imp hx

theorem splitFrameName_sound (f h d e : String)
    (hs : splitFrameName f = some (h, d, e)) :
    f.data = h.data ++ d.data ++ e.data ∧ d.data ≠ [] ∧
    ∀ c ∈ d.data, c.isDigit = true := by
  unfold splitFrameName at hs
  rcases hsr : splitRev f.data.reverse with _ | ⟨hr, dr, er⟩ <;> rw [hsr] at hs
  · exact absurd hs (by simp)
  · injection hs with hs2
    have hh : String.mk hr.reverse = h := congrArg Prod.fst hs2
    have hd : String.mk dr.reverse = d := by
      have := congrArg Prod.snd hs2
      exact congrArg Prod.fst this
    have he : String.mk er.reverse = e := by
      have := congrArg Prod.snd hs2
      exact congrArg Prod.snd this
    obtain ⟨hrev, hdne, hdig⟩ := splitRev_sound _ _ _ _ hsr
    have hdata : f.data = hr.reverse ++ dr.reverse ++ er.reverse := by
      have := congrArg List.reverse hrev
      rw [List.reverse_reverse] at this
      rw [this]
      simp [List.reverse_append]
    refine ⟨?_, ?_, ?_⟩
    · rw [← hh, ← hd, ← he]
      exact hdata
    · rw [← hd]
      simpa using hdne
    · intro c hc
      rw [← hd] at hc
      simp only [List.mem_reverse] at hc
      · exact hdig c (by simpa using hc)

theorem fileKey_split (filt : Option String) (f h e : String) (p : Nat)
    (hk : fileKey filt f = some (h, e, p)) :
    ∃ d : String, splitFrameName f = some (h, d, e) ∧ d.length = p := by
  unfold fileKey at hk
  split at hk
  · have hcore : fileKeyCore f = some (h, e, p) := by
      cases filt with
      | none => exact hk
      | some s =>
        dsimp only [] at hk
        split at hk
        · exact hk
        · exact absurd hk (by simp)
    unfold fileKeyCore at hcore
    rcases hsp : splitFrameName f with _ | ⟨h2, d2, e2⟩ <;> rw [hsp] at hcore
    · exact absurd hcore (by simp)
    · injection hcore with hc2
      have h1 : h2 = h := congrArg Prod.fst hc2
      have h2e : e2 = e := by
        have := congrArg Prod.snd hc2
        exact congrArg Prod.fst this
      have h3 : d2.length = p := by
        have := congrArg Prod.snd hc2
        exact congrArg Prod.snd this
      refine ⟨d2, ?_, h3⟩
      rw [h1, h2e]
  · exact absurd hk (by simp)

theorem frameNumOf_eq {f h d e : String} (hs : splitFrameName f = some (h, d, e)) :
    frameNumOf f = digitsToNat d.data := by
  unfold frameNumOf
  rw [hs]

/- ============== sortFiles: sortedness, permutation, extrema ============== -/

theorem sortFiles_perm (l : List String) : List.Perm (sortFiles l) l :=
  List.perm_insertionSort strLe l

theorem sortFiles_sorted (l : List String) : List.Sorted strLe (sortFiles l) := by
  haveI : IsTotal String strLe := ⟨fun a b => charListLe_total a.data b.data⟩
  haveI : IsTrans String strLe :=
    ⟨fun a b c h1 h2 => charListLe_trans a.data b.data c.data h1 h2⟩
  exact List.sorted_insertionSort strLe l

theorem sorted_head_le {l : List String} (hs : List.Sorted strLe l) {x : String}
    (hh : l.head? = some x) : ∀ y ∈ l, strLe x y := by
  cases l with
  | nil => simp at hh
  | cons a t =>
    have hx : a = x := by simpa using hh
    subst hx
    intro y hy
    rcases List.mem_cons.mp hy with rfl | hy2
    · exact charListLe_refl _
    · exact List.rel_of_sorted_cons hs y hy2

theorem sorted_getLast_ge {l : List String} (hs : List.Sorted strLe l) {x : String}
    (hl : l.getLast? = some x) : ∀ y ∈ l, strLe y x := by
  induction l with
  | nil => simp at hl
  | cons a t ih =>
    intro y hy
    cases t with
    | nil =>
      have hx : a = x := by simpa using hl
      subst hx
      have : y = a := by simpa using hy
      subst this
      exact charListLe_refl _
    | cons b t2 =>
      rw [List.getLast?_cons_cons] at hl
      rcases List.mem_cons.mp hy with rfl | hy2
      · have hxmem : x ∈ b :: t2 := getLast?_mem hl
        exact List.rel_of_sorted_cons hs x hxmem
      · exact ih (List.sorted_cons.mp hs).2 hl y hy2

/-- Within one group (same head, extension and padding), the lexicographic
file order agrees with the numeric frame order. -/
theorem member_le_frame (h e : String) {f1 f2 d1 d2 : String}
    (hs1 : splitFrameName f1 = some (h, d1, e))
    (hs2 : splitFrameName f2 = some (h, d2, e))
    (hlen : d1.length = d2.length)
    (hle : strLe f1 f2) : digitsToNat d1.data ≤ digitsToNat d2.data := by
  obtain ⟨hf1, _, hdig1⟩ := splitFrameName_sound _ _ _ _ hs1
  obtain ⟨hf2, _, hdig2⟩ := splitFrameName_sound _ _ _ _ hs2
  have hlen2 : d1.data.length = d2.data.length := hlen
  have h1 : charListLe (h.data ++ (d1.data ++ e.data))
      (h.data ++ (d2.data ++ e.data)) = true := by
    rw [← List.append_assoc, ← List.append_assoc, ← hf1, ← hf2]
    exact hle
  rw [charListLe_append_same] at h1
  rw [charListLe_append_eqlen e.data d1.data d2.data hlen2] at h1
  exact (digits_le_iff d1.data d2.data hlen2 hdig1 hdig2).mp h1

/- ============== the candidates dict ====================================== -/

theorem lookupC_addCand_self : ∀ (cands : List (SeqKey × List String))
    (k : SeqKey) (f : String),
    lookupC (addCand cands k f) k = some (((lookupC cands k).getD []) ++ [f]) := by
  intro cands
  induction cands with
  | nil => intro k f; simp [addCand, lookupC]
  | cons kg rest ih =>
    intro k f
    rcases kg with ⟨k2, g⟩
    by_cases hk : k2 = k
    · subst hk
      simp [addCand, lookupC]
    · simp only [addCand, hk, if_false, ite_false, lookupC]
      exact ih k f

theorem lookupC_addCand_other : ∀ (cands : List (SeqKey × List String))
    (kAdd kLook : SeqKey) (f : String), kLook ≠ kAdd →
    lookupC (addCand cands kAdd f) kLook = lookupC cands kLook := by
  intro cands
  induction cands with
  | nil =>
    intro kAdd kLook f hne
    have hne2 : ¬ kAdd = kLook := Ne.symm hne
    simp [addCand, lookupC, hne2]
  | cons kg rest ih =>
    intro kAdd kLook f hne
    rcases kg with ⟨k2, g⟩
    by_cases hk : k2 = kAdd
    · subst hk
      have hne2 : ¬ k2 = kLook := Ne.symm hne
      simp [addCand, lookupC, hne2]
    · simp only [addCand, hk, if_false, ite_false, lookupC]
      by_cases hk2 : k2 = kLook
      · simp [hk2]
      · simp only [hk2, if_false, ite_false]
        exact ih kAdd kLook f hne

theorem lookupC_eq_none : ∀ (cands : List (SeqKey × List String)) (k : SeqKey),
    lookupC cands k = none ↔ k ∉ cands.map Prod.fst := by
  intro cands
  induction cands with
  | nil => intro k; simp [lookupC]
  | cons kg rest ih =>
    intro k
    rcases kg with ⟨k2, g⟩
    by_cases hk : k2 = k
    · subst hk
      simp [lookupC]
    · simp only [lookupC, hk, if_false, ite_false, List.map_cons, List.mem_cons]
      rw [ih k]
      constructor
      · intro hnone hor
        rcases hor with hor | hor
        · exact hk hor.symm
        · exact hnone hor
      · intro hno
        intro hmem
        exact hno (Or.inr hmem)

theorem groupOf_cons (filt : Option String) (f : String) (fs : List String)
    (k : SeqKey) :
    groupOf filt (f :: fs) k =
      if fileKey filt f = some k then f :: groupOf filt fs k
      else groupOf filt fs k := by
  by_cases h : fileKey filt f = some k
  · simp [groupOf, List.filter, h]
  · simp [groupOf, List.filter, h]

theorem lookupC_scan (filt : Option String) (k : SeqKey) : ∀ (files : List String)
    (cands : List (SeqKey × List String)),
    (lookupC cands k = none →
      lookupC (files.foldl (scanStep filt) cands) k =
        (if groupOf filt files k = [] then none else some (groupOf filt files k))) ∧
    (∀ g, lookupC cands k = some g →
      lookupC (files.foldl (scanStep filt) cands) k =
        some (g ++ groupOf filt files k)) := by
  intro files
  induction files with
  | nil =>
    intro cands
    constructor
    · intro hnone
      simp only [List.foldl_nil, groupOf, List.filter_nil, if_true, ite_true]
      exact hnone
    · intro g hg
      simp only [List.foldl_nil, groupOf, List.filter_nil, List.append_nil]
      exact hg
  | cons f fs ih =>
    intro cands
    rcases hk : fileKey filt f with _ | k2
    · have hstep : scanStep filt cands f = cands := by simp [scanStep, hk]
      have hgr : groupOf filt (f :: fs) k = groupOf filt fs k := by
        rw [groupOf_cons]
        simp [hk]
      simp only [List.foldl_cons, hstep, hgr]
      exact ih cands
    · by_cases hk2 : k2 = k
      · subst hk2
        have hstep : scanStep filt cands f = addCand cands k2 f := by
          simp [scanStep, hk]
        have hgr : groupOf filt (f :: fs) k2 = f :: groupOf filt fs k2 := by
          rw [groupOf_cons]
          simp [hk]
        simp only [List.foldl_cons, hstep, hgr]
        constructor
        · intro hnone
          have hadd := lookupC_addCand_self cands k2 f
          rw [hnone] at hadd
          have h2 := (ih (addCand cands k2 f)).2 [f] (by simpa using hadd)
          rw [h2]
          simp
        · intro g hg
          have hadd := lookupC_addCand_self cands k2 f
          rw [hg] at hadd
          have h2 := (ih (addCand cands k2 f)).2 (g ++ [f]) (by simpa using hadd)
          rw [h2]
          simp
      · have hstep : scanStep filt cands f = addCand cands k2 f := by
          simp [scanStep, hk]
        have hgr : groupOf filt (f :: fs) k = groupOf filt fs k := by
          rw [groupOf_cons, hk]
          simp [hk2]
        have hlk : lookupC (addCand cands k2 f) k = lookupC cands k :=
          lookupC_addCand_other cands k2 k f (Ne.symm hk2)
        simp only [List.foldl_cons, hstep, hgr]
        constructor
        · intro hnone
          exact (ih (addCand cands k2 f)).1 (by rw [hlk]; exact hnone)
        · intro g hg
          exact (ih (addCand cands k2 f)).2 g (by rw [hlk]; exact hg)

theorem addCand_keys : ∀ (cands : List (SeqKey × List String)) (k : SeqKey)
    (f : String),
    (addCand cands k f).map Prod.fst =
      if k ∈ cands.map Prod.fst then cands.map Prod.fst
      else cands.map Prod.fst ++ [k] := by
  intro cands
  induction cands with
  | nil => intro k f; simp [addCand]
  | cons kg rest ih =>
    intro k f
    rcases kg with ⟨k2, g⟩
    by_cases hk : k2 = k
    · subst hk
      simp [addCand]
    · simp only [addCand, hk, if_false, ite_false, List.map_cons, List.mem_cons]
      rw [ih k f]
      have hk3 : ¬ k = k2 := Ne.symm hk
      by_cases hmem : k ∈ rest.map Prod.fst
      · simp [hmem, hk3]
      · simp [hmem, hk3]

theorem addCand_entries (filt : Option String) : ∀ (cands : List (SeqKey × List String))
    (k : SeqKey) (f : String),
    fileKey filt f = some k →
    (∀ kg ∈ cands, kg.2 ≠ [] ∧ ∀ f2 ∈ kg.2, fileKey filt f2 = some kg.1) →
    (∀ kg ∈ addCand cands k f, kg.2 ≠ [] ∧
      ∀ f2 ∈ kg.2, fileKey filt f2 = some kg.1) := by
  intro cands
  induction cands with
  | nil =>
    intro k f hkey _ kg hkg
    simp [addCand] at hkg
    subst hkg
    refine ⟨by simp, ?_⟩
    intro f2 hf2
    simp at hf2
    subst hf2
    exact hkey
  | cons kg0 rest ih =>
    intro k f hkey hinv kg hkg
    rcases kg0 with ⟨k2, g⟩
    by_cases hk : k2 = k
    · subst hk
      simp only [addCand, if_true, ite_true, List.mem_cons] at hkg
      rcases hkg with rfl | hkg
      · refine ⟨by simp, ?_⟩
        intro f2 hf2
        rcases List.mem_append.mp hf2 with hf2 | hf2
        · exact (hinv (k2, g) (by simp)).2 f2 hf2
        · have : f2 = f := by simpa using hf2
          subst this
          exact hkey
      · exact hinv kg (by simp [hkg])
    · simp only [addCand, hk, if_false, ite_false, List.mem_cons] at hkg
      rcases hkg with rfl | hkg
      · exact hinv (k2, g) (by simp)
      · exact ih k f hkey (fun kg2 hkg2 => hinv kg2 (by simp [hkg2])) kg hkg

theorem scan_candsOk (filt : Option String) : ∀ (files : List String)
    (cands : List (SeqKey × List String)),
    (cands.map Prod.fst).Nodup →
    (∀ kg ∈ cands, kg.2 ≠ [] ∧ ∀ f2 ∈ kg.2, fileKey filt f2 = some kg.1) →
    ((files.foldl (scanStep filt) cands).map Prod.fst).Nodup ∧
    (∀ kg ∈ files.foldl (scanStep filt) cands, kg.2 ≠ [] ∧
      ∀ f2 ∈ kg.2, fileKey filt f2 = some kg.1) := by
  intro files
  induction files with
  | nil => intro cands h1 h2; exact ⟨h1, h2⟩
  | cons f fs ih =>
    intro cands h1 h2
    rcases hk : fileKey filt f with _ | k
    · have hstep : scanStep filt cands f = cands := by simp [scanStep, hk]
      simp only [List.foldl_cons, hstep]
      exact ih cands h1 h2
    · have hstep : scanStep filt cands f = addCand cands k f := by
        simp [scanStep, hk]
      simp only [List.foldl_cons, hstep]
      refine ih (addCand cands k f) ?_ (addCand_entries filt cands k f hk h2)
      rw [addCand_keys]
      by_cases hmem : k ∈ cands.map Prod.fst
      · simp [hmem]
        exact h1
      · simp only [hmem, if_false, ite_false]
        simp [List.nodup_append, h1, hmem]

/- ============== record construction ====================================== -/

theorem recOf_spec (filt : Option String) (dir h e : String) (p : Nat)
    (g : List String) (hne : g ≠ [])
    (hmem : ∀ f ∈ g, fileKey filt f = some (h, e, p)) :
    ∃ r : SeqRec, recOf dir (h, e, p) g = some r ∧ r.dir = dir ∧ r.head = h ∧
      r.ext = e ∧ r.pad = p ∧ r.count = g.length ∧
      r.start ∈ g.map frameNumOf ∧ (∀ q ∈ g.map frameNumOf, r.start ≤ q) ∧
      r.endFrame ∈ g.map frameNumOf ∧ (∀ q ∈ g.map frameNumOf, q ≤ r.endFrame) := by
  have hperm := sortFiles_perm g
  have hsorted := sortFiles_sorted g
  rcases hsrt : sortFiles g with _ | ⟨f0, srest⟩
  · exfalso
    rw [hsrt] at hperm
    have hlen := hperm.length_eq
    cases g with
    | nil => exact hne rfl
    | cons x xs => simp at hlen
  · rw [hsrt] at hperm hsorted
    rcases hlast : (f0 :: srest).getLast? with _ | f1
    · simp at hlast
    · have hf0g : f0 ∈ g := hperm.mem_iff.mp (by simp)
      have hf1g : f1 ∈ g := hperm.mem_iff.mp (getLast?_mem hlast)
      obtain ⟨d0, hsp0, hp0⟩ := fileKey_split filt f0 h e p (hmem f0 hf0g)
      obtain ⟨d1, hsp1, hp1⟩ := fileKey_split filt f1 h e p (hmem f1 hf1g)
      refine ⟨⟨dir, h, e, p, digitsToNat d0.data, digitsToNat d1.data, g.length⟩,
        ?_, rfl, rfl, rfl, rfl, rfl, ?_, ?_, ?_, ?_⟩
      · simp only [recOf, hsrt, List.head?_cons, hlast, hsp0, hsp1]
      · exact List.mem_map.mpr ⟨f0, hf0g, frameNumOf_eq hsp0⟩
      · intro q hq
        obtain ⟨y, hyg, rfl⟩ := List.mem_map.mp hq
        obtain ⟨dy, hspy, hpy⟩ := fileKey_split filt y h e p (hmem y hyg)
        rw [frameNumOf_eq hspy]
        have hy2 : y ∈ f0 :: srest := hperm.mem_iff.mpr hyg
        have hle : strLe f0 y := sorted_head_le hsorted rfl y hy2
        exact member_le_frame h e hsp0 hspy (by rw [hp0, hpy]) hle
      · exact List.mem_map.mpr ⟨f1, hf1g, frameNumOf_eq hsp1⟩
      · intro q hq
        obtain ⟨y, hyg, rfl⟩ := List.mem_map.mp hq
        obtain ⟨dy, hspy, hpy⟩ := fileKey_split filt y h e p (hmem y hyg)
        rw [frameNumOf_eq hspy]
        have hy2 : y ∈ f0 :: srest := hperm.mem_iff.mpr hyg
        have hle : strLe y f1 := sorted_getLast_ge hsorted hlast y hy2
        exact member_le_frame h e hspy hsp1 (by rw [hpy, hp1]) hle

theorem recOf_fields {dir : String} {k : SeqKey} {g : List String} {r : SeqRec}
    (h : recOf dir k g = some r) :
    r.dir = dir ∧ r.head = k.1 ∧ r.ext = k.2.1 ∧ r.pad = k.2.2 := by
  unfold recOf at h
  dsimp only [] at h
  split at h
  · split at h
    · injection h with h2
      subst h2
      exact ⟨rfl, rfl, rfl, rfl⟩
    · exact absurd h (by simp)
  · exact absurd h (by simp)

/-- One record per key: filtering the emitted records of one directory by the
key's field values yields exactly the record of that key's group (when the
key is present) and nothing otherwise. -/
theorem filterMapRec_filter (filt : Option String) (dir h e : String) (p : Nat) :
    ∀ (cands : List (SeqKey × List String)),
    (cands.map Prod.fst).Nodup →
    (∀ kg ∈ cands, kg.2 ≠ [] ∧ ∀ f2 ∈ kg.2, fileKey filt f2 = some kg.1) →
    ((lookupC cands (h, e, p) = none →
      (cands.filterMap (fun kg => recOf dir kg.1 kg.2)).filter
          (fun r => decide (r.head = h) && decide (r.ext = e) &&
            decide (r.pad = p)) = []) ∧
     (∀ g, lookupC cands (h, e, p) = some g →
      ∃ r, recOf dir (h, e, p) g = some r ∧
        (cands.filterMap (fun kg => recOf dir kg.1 kg.2)).filter
            (fun r2 => decide (r2.head = h) && decide (r2.ext = e) &&
              decide (r2.pad = p)) = [r])) := by
  intro cands
  induction cands with
  | nil =>
    intro _ _
    constructor
    · intro _; rfl
    · intro g hg; simp [lookupC] at hg
  | cons kg0 rest ih =>
    intro hnd hinv
    rcases kg0 with ⟨k2, g2⟩
    have hg2 := hinv (k2, g2) (by simp)
    obtain ⟨r2, hrec2, hdir2, hh2, hext2, hpad2, _⟩ :=
      recOf_spec filt dir k2.1 k2.2.1 k2.2.2 g2 hg2.1 (fun f2 hf2 => hg2.2 f2 hf2)
    have hfm : ((k2, g2) :: rest).filterMap (fun kg => recOf dir kg.1 kg.2) =
        r2 :: rest.filterMap (fun kg => recOf dir kg.1 kg.2) := by
      rw [List.filterMap_cons]
      rw [show recOf dir k2 g2 = some r2 from hrec2]
    have hnd2 : (rest.map Prod.fst).Nodup := (by
      rw [List.map_cons] at hnd
      exact (List.nodup_cons.mp hnd).2)
    have hinv2 : ∀ kg ∈ rest, kg.2 ≠ [] ∧ ∀ f2 ∈ kg.2, fileKey filt f2 = some kg.1 :=
      fun kg hkg => hinv kg (by simp [hkg])
    by_cases hk2 : k2 = (h, e, p)
    · subst hk2
      have hpred : (decide (r2.head = h) && decide (r2.ext = e) &&
          decide (r2.pad = p)) = true := by
        simp [hh2, hext2, hpad2]
      have hnotin : (h, e, p) ∉ rest.map Prod.fst := by
        rw [List.map_cons] at hnd
        exact (List.nodup_cons.mp hnd).1
      have hrestnone : lookupC rest (h, e, p) = none :=
        (lookupC_eq_none rest (h, e, p)).mpr hnotin
      have hrestnil := (ih hnd2 hinv2).1 hrestnone
      constructor
      · intro hnone
        simp [lookupC] at hnone
      · intro g hg
        have hgg : g2 = g := by simpa [lookupC] using hg
        subst hgg
        refine ⟨r2, hrec2, ?_⟩
        rw [hfm, List.filter_cons, hpred]
        simp only [if_true, ite_true]
        rw [hrestnil]
    · have hpredf : (decide (r2.head = h) && decide (r2.ext = e) &&
          decide (r2.pad = p)) = false := by
        have hne2 : ¬ (r2.head = h ∧ r2.ext = e ∧ r2.pad = p) := by
          rintro ⟨ha, hb, hc⟩
          apply hk2
          have hk2eta : k2 = (k2.1, k2.2.1, k2.2.2) := rfl
          rw [hk2eta, ← hh2, ← hext2, ← hpad2, ha, hb, hc]
        by_cases h1 : r2.head = h <;> by_cases h2 : r2.ext = e <;>
          by_cases h3 : r2.pad = p <;> simp [h1, h2, h3] at hne2 ⊢
      have hlk : ∀ x, lookupC ((k2, g2) :: rest) (h, e, p) = x ↔
          lookupC rest (h, e, p) = x := by
        intro x
        simp [lookupC, hk2]
      constructor
      · intro hnone
        rw [hfm, List.filter_cons, hpredf]
        simp only [Bool.false_eq_true, if_false, ite_false]
        exact (ih hnd2 hinv2).1 ((hlk none).mp hnone)
      · intro g hg
        obtain ⟨r, hrec, hfilt⟩ := (ih hnd2 hinv2).2 g ((hlk (some g)).mp hg)
        refine ⟨r, hrec, ?_⟩
        rw [hfm, List.filter_cons, hpredf]
        simp only [Bool.false_eq_true, if_false, ite_false]
        exact hfilt

/- ===================== Theorems: C4 ====================================== -/

/-- C4: for one directory, all admitted files sharing an identical
(head, extension, padding) key are grouped into exactly one Sequence record;
its `count` is the number of those files and its `start`/`end` frames are the
numerically lowest/highest frame numbers present; records of a different
padding are always distinct records. -/
theorem c4_scanner_grouping (filt : Option String) (dir : String)
    (files : List String) (h e : String) (p : Nat)
    (hg : groupOf filt files (h, e, p) ≠ []) :
    ∃ r : SeqRec,
      (scanDir filt dir files).filter
          (fun r2 => decide (r2.head = h) && decide (r2.ext = e) &&
            decide (r2.pad = p)) = [r] ∧
      r.count = (groupOf filt files (h, e, p)).length ∧
      r.start ∈ (groupOf filt files (h, e, p)).map frameNumOf ∧
      (∀ q ∈ (groupOf filt files (h, e, p)).map frameNumOf, r.start ≤ q) ∧
      r.endFrame ∈ (groupOf filt files (h, e, p)).map frameNumOf ∧
      (∀ q ∈ (groupOf filt files (h, e, p)).map frameNumOf, q ≤ r.endFrame) ∧
      (∀ p2 : Nat, p2 ≠ p → ∀ r2 ∈ scanDir filt dir files, r2.pad = p2 → r2 ≠ r) := by
  have hlook : lookupC (buildCands filt files) (h, e, p) =
      some (groupOf filt files (h, e, p)) := by
    unfold buildCands
    have hsc := (lookupC_scan filt (h, e, p) files []).1 rfl
    rw [hsc]
    simp [hg]
  obtain ⟨hnd, hinv⟩ := scan_candsOk filt files [] (by simp) (by simp)
  obtain ⟨r, hrec, hfilt⟩ :=
    (filterMapRec_filter filt dir h e p (buildCands filt files) hnd hinv).2
      (groupOf filt files (h, e, p)) hlook
  have hmemg : ∀ f ∈ groupOf filt files (h, e, p), fileKey filt f = some (h, e, p) := by
    intro f hf
    have := List.of_mem_filter hf
    exact of_decide_eq_true this
  obtain ⟨r3, hrec3, hdir3, hh3, hext3, hpad3, hcount3, hs1, hs2, hs3, hs4⟩ :=
    recOf_spec filt dir h e p (groupOf filt files (h, e, p)) hg hmemg
  have hr3 : r3 = r := by
    rw [hrec] at hrec3
    exact (Option.some.inj hrec3).symm
  subst hr3
  refine ⟨r3, ?_, hcount3, hs1, hs2, hs3, hs4, ?_⟩
  · unfold scanDir
    exact hfilt
  · intro p2 hp2 r2 _ hr2pad hcon
    apply hp2
    rw [← hr2pad, hcon, hpad3]

/-- C4 witness: `shot.0100.exr` and `shot.0101.exr` (padding 4) group into one
record with count 2 and frame extent 100-101, while `shot.00100.exr`
(padding 5) stays out of that group. -/
theorem c4_scanner_grouping_witness :
    groupOf none ["shot.0100.exr", "shot.00100.exr", "shot.0101.exr"]
        ("shot.", ".exr", 4) ≠ [] ∧
    ∃ r : SeqRec,
      (scanDir none "/r" ["shot.0100.exr", "shot.00100.exr", "shot.0101.exr"]).filter
          (fun r2 => decide (r2.head = "shot.") && decide (r2.ext = ".exr") &&
            decide (r2.pad = 4)) = [r] ∧
      r.count = (groupOf none ["shot.0100.exr", "shot.00100.exr", "shot.0101.exr"]
        ("shot.", ".exr", 4)).length ∧
      r.start ∈ (groupOf none ["shot.0100.exr", "shot.00100.exr", "shot.0101.exr"]
        ("shot.", ".exr", 4)).map frameNumOf ∧
      (∀ q ∈ (groupOf none ["shot.0100.exr", "shot.00100.exr", "shot.0101.exr"]
        ("shot.", ".exr", 4)).map frameNumOf, r.start ≤ q) ∧
      r.endFrame ∈ (groupOf none ["shot.0100.exr", "shot.00100.exr", "shot.0101.exr"]
        ("shot.", ".exr", 4)).map frameNumOf ∧
      (∀ q ∈ (groupOf none ["shot.0100.exr", "shot.00100.exr", "shot.0101.exr"]
        ("shot.", ".exr", 4)).map frameNumOf, q ≤ r.endFrame) ∧
      (∀ p2 : Nat, p2 ≠ 4 → ∀ r2 ∈ scanDir none "/r"
        ["shot.0100.exr", "shot.00100.exr", "shot.0101.exr"], r2.pad = p2 → r2 ≠ r) :=
  ⟨by decide,
   c4_scanner_grouping none "/r" ["shot.0100.exr", "shot.00100.exr", "shot.0101.exr"]
     "shot." ".exr" 4 (by decide)⟩

/- ===================== Theorems: C10 ===================================== -/

theorem scanDir_dir_eq (filt : Option String) (dir : String) (files : List String) :
    ∀ r ∈ scanDir filt dir files, r.dir = dir := by
  intro r hr
  unfold scanDir at hr
  obtain ⟨kg, _, hrec⟩ := List.mem_filterMap.mp hr
  exact (recOf_fields hrec).1

theorem find_foldl_append (filt : Option String) : ∀ (walk : List (String × List String))
    (acc : List SeqRec),
    walk.foldl (fun a df => a ++ scanDir filt df.1 df.2) acc =
      acc ++ (walk.map (fun df => scanDir filt df.1 df.2)).flatten := by
  intro walk
  induction walk with
  | nil => intro acc; simp
  | cons df rest ih =>
    intro acc
    simp only [List.foldl_cons, List.map_cons, List.flatten_cons]
    rw [ih]
    simp [List.append_assoc]

theorem filter_flatten_dir (filt : Option String) : ∀ (walk : List (String × List String))
    (d : String) (fs : List String),
    (walk.map Prod.fst).Nodup → (d, fs) ∈ walk →
    ((walk.map (fun df => scanDir filt df.1 df.2)).flatten).filter
        (fun r => decide (r.dir = d)) = scanDir filt d fs := by
  intro walk
  induction walk with
  | nil => intro d fs _ hmem; simp at hmem
  | cons df rest ih =>
    intro d fs hnd hmem
    rcases df with ⟨d1, fs1⟩
    rw [List.map_cons] at hnd
    simp only [List.map_cons, List.flatten_cons, List.filter_append]
    by_cases hd : d1 = d
    · subst hd
      have hfs : fs = fs1 := by
        rcases List.mem_cons.mp hmem with heq | hmem2
        · have := congrArg Prod.snd heq
          simpa using this
        · exfalso
          apply (List.nodup_cons.mp hnd).1
          exact List.mem_map.mpr ⟨(d1, fs), hmem2, rfl⟩
      subst hfs
      have h1 : (scanDir filt d1 fs).filter (fun r => decide (r.dir = d1)) =
          scanDir filt d1 fs :=
        List.filter_eq_self.mpr (fun r hr => by
          simp [scanDir_dir_eq filt d1 fs r hr])
      have h2 : ((rest.map (fun df => scanDir filt df.1 df.2)).flatten).filter
          (fun r => decide (r.dir = d1)) = [] := by
        apply List.filter_eq_nil_iff.mpr
        intro r hr
        obtain ⟨blk, hblk, hrblk⟩ := List.mem_flatten.mp hr
        obtain ⟨df2, hdf2, rfl⟩ := List.mem_map.mp hblk
        have hrd := scanDir_dir_eq filt df2.1 df2.2 r hrblk
        have hd2 : df2.1 ≠ d1 := by
          intro hcon
          apply (List.nodup_cons.mp hnd).1
          rw [← hcon]
          exact List.mem_map.mpr ⟨df2, hdf2, rfl⟩
        simp [hrd, hd2]
      rw [h1, h2, List.append_nil]
    · have h1 : (scanDir filt d1 fs1).filter (fun r => decide (r.dir = d)) = [] := by
        apply List.filter_eq_nil_iff.mpr
        intro r hr
        have hrd := scanDir_dir_eq filt d1 fs1 r hr
        simp [hrd, hd]
      rw [h1, List.nil_append]
      have hmem2 : (d, fs) ∈ rest := by
        rcases List.mem_cons.mp hmem with heq | hmem2
        · exfalso
          apply hd
          have := congrArg Prod.fst heq
          simpa using this.symm
        · exact hmem2
      exact ih d fs (List.nodup_cons.mp hnd).2 hmem2

/-- C10: the grouping state is reset per directory: filtering the scanner's
full output by a directory gives exactly the records of scanning that
directory's files alone, so identical (head, ext, pad) patterns in different
directories always yield separate per-directory records, never one merged
record. -/
theorem c10_per_directory (filt : Option String)
    (walk : List (String × List String)) (d : String) (fs : List String)
    (hnd : (walk.map Prod.fst).Nodup) (hmem : (d, fs) ∈ walk) :
    (find_exr_sequences walk filt).filter (fun r => decide (r.dir = d)) =
      scanDir filt d fs := by
  unfold find_exr_sequences
  rw [find_foldl_append]
  simp only [List.nil_append]
  exact filter_flatten_dir filt walk d fs hnd hmem

/-- C10 witness: two directories holding identically named frame files yield
two separate single-directory record sets. -/
theorem c10_per_directory_witness :
    (find_exr_sequences [("/a", ["x.0001.exr"]), ("/b", ["x.0001.exr"])] none).filter
        (fun r => decide (r.dir = "/a")) = scanDir none "/a" ["x.0001.exr"] ∧
    (find_exr_sequences [("/a", ["x.0001.exr"]), ("/b", ["x.0001.exr"])] none).filter
        (fun r => decide (r.dir = "/b")) = scanDir none "/b" ["x.0001.exr"] :=
  ⟨c10_per_directory none [("/a", ["x.0001.exr"]), ("/b", ["x.0001.exr"])] "/a"
     ["x.0001.exr"] (by decide) (by decide),
   c10_per_directory none [("/a", ["x.0001.exr"]), ("/b", ["x.0001.exr"])] "/b"
     ["x.0001.exr"] (by decide) (by decide)⟩

end SKF
